import Mathlib

/-!
# Verification of the B-matrix (modularity matrix) module of newman-modularity-c

The repository ships the header `src/bmat.h`, which declares the `bmat`
struct (fields `sp`, `vecF`, `n`, `M`, `shifting`) together with the
operations `Bv`, `splitGraphB`, `powerIter`, `eigenValue`,
`modularityCalc`, `readGraphB`, `randomizeVec` and `updateFields`.
The C implementation file of these operations is not part of `src/`,
so each operation below is modelled from the specification text
(`spec.md`), faithfully to its words; the struct itself is embedded
from the header.

Numeric values (C `double` and the integer degree data it is mixed
with) are modelled as exact rationals `ℚ`; vectors are lists, arrays
indexed from zero, read with `List.getD` (out-of-range reads yield 0).
-/

namespace NewmanB

/-- The `bmat` struct from `src/bmat.h` (lines 41–46).  The sparse matrix
`sp` is modelled by its adjacency entries together with the `K` array of
vertex degrees that `getKPtr` exposes (the spec calls it `degreeIndex`);
`vecF` is the correction vector, `M` the total edge weight, `shifting`
the diagonal shift. -/
structure BMat where
  n : ℕ
  adjacency : List (List ℚ)
  degreeIndex : List ℚ
  vecF : List ℚ
  M : ℚ
  shifting : ℚ
deriving Repr, DecidableEq

/-- Well-formedness of a `BMat`: the arrays all have length `n`, the
adjacency is `n × n`, and the total edge weight is nonzero (it is a
divisor in the implicit product). -/
def WF (B : BMat) : Prop :=
  B.adjacency.length = B.n ∧ (∀ row ∈ B.adjacency, row.length = B.n) ∧
    B.degreeIndex.length = B.n ∧ B.vecF.length = B.n ∧ B.M ≠ 0

instance (B : BMat) : Decidable (WF B) := by
  unfold WF; infer_instance

/-- Dot product of two vectors, as computed entrywise by the C code. -/
def dot (xs ys : List ℚ) : ℚ := (List.zipWith (· * ·) xs ys).sum

/-- Error taxonomy of the module (`error(int errorCode)` in the header;
names from the spec's error-handling section). -/
inductive BErr where
  | allocation
  | nonConvergence
  | invalidPartition
  | zeroVector
deriving Repr, DecidableEq

/-- Modelled from the spec: the implementation of `Bv` is not under
`src/` (only its declaration in `bmat.h`).  Per spec §4.1, for each row
`i`, `result[i] = (Σ_j adjacency[i][j]·vec[j])
− degreeIndex[i]·(Σ_j degreeIndex[j]·vec[j])/totalEdgeWeight
− correctionVector[i]·vec[i] + shift·vec[i]`, with the rank-one term's
dot product computed once per call. -/
def Bv (B : BMat) (vec : List ℚ) : List ℚ :=
  let kv := dot B.degreeIndex vec
  (List.range B.n).map (fun i =>
    dot (B.adjacency.getD i []) vec
      - B.degreeIndex.getD i 0 * kv / B.M
      - B.vecF.getD i 0 * vec.getD i 0
      + B.shifting * vec.getD i 0)

/-- Entry `(i, j)` of the dense degree-corrected, shifted modularity
matrix that `Bv` realizes implicitly:
`adjacency[i][j] − k_i·k_j/M` minus `correctionVector[i] − shift` on the
diagonal. -/
def denseEntry (B : BMat) (i j : ℕ) : ℚ :=
  (B.adjacency.getD i []).getD j 0
    - B.degreeIndex.getD i 0 * B.degreeIndex.getD j 0 / B.M
    - (if i = j then B.vecF.getD i 0 - B.shifting else 0)

/-- Brute-force dense matrix–vector product of the matrix with entries
`denseEntry B` against `vec`. -/
def denseMulVec (B : BMat) (vec : List ℚ) : List ℚ :=
  (List.range B.n).map (fun i =>
    ∑ j ∈ Finset.range B.n, denseEntry B i j * vec.getD j 0)

theorem dot_eq_sum_range (xs ys : List ℚ) :
    dot xs ys =
      ∑ i ∈ Finset.range (min xs.length ys.length),
        xs.getD i 0 * ys.getD i 0 := by
  induction xs generalizing ys with
  | nil => simp [dot]
  | cons x xs ih =>
    cases ys with
    | nil => simp [dot]
    | cons y ys =>
      have h := ih ys
      simp only [dot, List.zipWith_cons_cons, List.sum_cons] at *
      rw [List.length_cons, List.length_cons, Nat.succ_min_succ,
        Finset.sum_range_succ']
      simp only [List.getD_cons_succ, List.getD_cons_zero]
      rw [← h]
      ring

theorem length_getD_adjacency (B : BMat) (hWF : WF B) {i : ℕ}
    (hi : i < B.n) : (B.adjacency.getD i []).length = B.n := by
  obtain ⟨hlen, hrows, -⟩ := hWF
  have hi' : i < B.adjacency.length := by omega
  rw [List.getD_eq_getElem B.adjacency [] hi']
  exact hrows _ (B.adjacency.getElem_mem hi')

theorem Bv_eq_dense_aux (B : BMat) (vec : List ℚ) (hWF : WF B)
    (hv : vec.length = B.n) : Bv B vec = denseMulVec B vec := by
  obtain ⟨hadj, hrows, hK, hF, hM⟩ := hWF
  unfold Bv denseMulVec
  apply List.map_congr_left
  intro i hi
  rw [List.mem_range] at hi
  have hrow : (B.adjacency.getD i []).length = B.n :=
    length_getD_adjacency B ⟨hadj, hrows, hK, hF, hM⟩ hi
  rw [dot_eq_sum_range, dot_eq_sum_range, hrow, hv, hK, min_self]
  have key : ∀ j, denseEntry B i j * vec.getD j 0 =
      (B.adjacency.getD i []).getD j 0 * vec.getD j 0
        - B.degreeIndex.getD i 0 * B.degreeIndex.getD j 0 / B.M *
            vec.getD j 0
        - (if i = j then
            (B.vecF.getD i 0 - B.shifting) * vec.getD j 0 else 0) := by
    intro j
    unfold denseEntry
    by_cases h : i = j <;> simp [h] <;> ring
  simp only [key]
  rw [Finset.sum_sub_distrib, Finset.sum_sub_distrib, Finset.sum_ite_eq]
  have hrank :
      ∑ j ∈ Finset.range B.n,
          B.degreeIndex.getD i 0 * B.degreeIndex.getD j 0 / B.M *
            vec.getD j 0
        = B.degreeIndex.getD i 0 *
            (∑ j ∈ Finset.range B.n,
              B.degreeIndex.getD j 0 * vec.getD j 0) / B.M := by
    rw [Finset.mul_sum, Finset.sum_div]
    exact Finset.sum_congr rfl (fun j _ => by ring)
  rw [hrank]
  simp only [Finset.mem_range, hi, if_pos]
  ring

/-- C1: for every well-formed `ModularityMatrix` and length-`n` vector,
the implicit product `Bv` computes exactly the dense degree-corrected,
shifted modularity matrix applied to the vector: for each row `i`,
`res[i] = (Σ_j A[i][j]·v[j]) − k[i]·(Σ_j k[j]·v[j])/M − vecF[i]·v[i]
+ shift·v[i]`, which equals row `i` of the dense matrix times `v`. -/
theorem Bv_implements_dense (B : BMat) (vec : List ℚ) (hWF : WF B)
    (hv : vec.length = B.n) : Bv B vec = denseMulVec B vec :=
  Bv_eq_dense_aux B vec hWF hv

theorem dot_self_nonneg (xs : List ℚ) : 0 ≤ dot xs xs := by
  induction xs with
  | nil => simp [dot]
  | cons x xs ih =>
    have hx : 0 ≤ x * x := mul_self_nonneg x
    simp only [dot, List.zipWith_cons_cons, List.sum_cons] at *
    linarith

theorem dot_self_eq_zero_iff (xs : List ℚ) :
    dot xs xs = 0 ↔ ∀ x ∈ xs, x = 0 := by
  induction xs with
  | nil => simp [dot]
  | cons x xs ih =>
    have hx : 0 ≤ x * x := mul_self_nonneg x
    have hs : 0 ≤ dot xs xs := dot_self_nonneg xs
    simp only [dot, List.zipWith_cons_cons, List.sum_cons,
      List.mem_cons, forall_eq_or_imp] at *
    constructor
    · intro h
      have hx0 : x * x = 0 := by linarith
      have : x = 0 := by
        rcases mul_self_eq_zero.mp hx0 with h; exact h
      exact ⟨this, ih.mp (by linarith)⟩
    · rintro ⟨hx0, hall⟩
      rw [hx0, ih.mpr hall]
      ring

/-- Modelled from the spec: the implementation of `eigenValue` is not
under `src/` (only its declaration in `bmat.h`).  Per spec §4.1 it
computes the Rayleigh quotient `(vec·B·vec)/(vec·vec)` with one `Bv`
call into `tmp` and two dot products, and returns 0 while signalling
`ZeroVectorError` when `vec` is the zero vector instead of dividing by
zero.  The returned pair is (value, optional signalled error). -/
def eigenValue (B : BMat) (vec : List ℚ) : ℚ × Option BErr :=
  let tmp := Bv B vec
  if dot vec vec = 0 then (0, some BErr.zeroVector)
  else (dot vec tmp / dot vec vec, none)

/-- C4: on any vector with a nonzero entry, `eigenValue` returns the
Rayleigh quotient `(vec·(B·vec))/(vec·vec)` and signals no error; on
the zero vector it returns 0 and signals `ZeroVectorError` instead of
dividing by zero. -/
theorem eigenValue_spec (B : BMat) (vec : List ℚ) :
    ((∃ x ∈ vec, x ≠ 0) →
      eigenValue B vec = (dot vec (Bv B vec) / dot vec vec, none))
    ∧ ((∀ x ∈ vec, x = 0) →
      eigenValue B vec = (0, some BErr.zeroVector)) := by
  constructor
  · rintro ⟨x, hx, hx0⟩
    have hne : dot vec vec ≠ 0 := by
      intro h
      exact hx0 ((dot_self_eq_zero_iff vec).mp h x hx)
    simp [eigenValue, hne]
  · intro hall
    have h0 : dot vec vec = 0 := (dot_self_eq_zero_iff vec).mpr hall
    simp [eigenValue, h0]

/-- Modelled from the spec: the implementation of `modularityCalc` is
not under `src/` (only its declaration in `bmat.h`).  Per spec §4.1 it
computes `(vec·B·vec) / (4 × totalEdgeWeight)` with one `Bv` call and
one dot product. -/
def modularityCalc (B : BMat) (vec : List ℚ) : ℚ :=
  dot vec (Bv B vec) / (4 * B.M)

/-- C5: for a well-formed matrix and a length-`n` division vector with
entries `±1`, `modularityCalc` returns `(vec·(B·vec)) / (4·M)`, where
`B·vec` is the dense degree-corrected, shifted matrix applied to
`vec`. -/
theorem modularityCalc_eq_dense (B : BMat) (vec : List ℚ) (hWF : WF B)
    (hv : vec.length = B.n) (hsign : ∀ x ∈ vec, x = 1 ∨ x = -1) :
    modularityCalc B vec = dot vec (denseMulVec B vec) / (4 * B.M) := by
  unfold modularityCalc
  rw [Bv_eq_dense_aux B vec hWF hv]

theorem getD_map_neg (v : List ℚ) (i : ℕ) :
    (v.map (fun x => -x)).getD i 0 = -(v.getD i 0) := by
  by_cases h : i < v.length
  · rw [List.getD_eq_getElem _ _ (by simpa using h),
      List.getD_eq_getElem _ _ h, List.getElem_map]
  · rw [List.getD_eq_default _ _ (by simpa using Nat.le_of_not_lt h),
      List.getD_eq_default _ _ (Nat.le_of_not_lt h)]
    ring

theorem dot_neg_right (xs ys : List ℚ) :
    dot xs (ys.map (fun x => -x)) = -dot xs ys := by
  rw [dot_eq_sum_range, dot_eq_sum_range, List.length_map, ← Finset.sum_neg_distrib]
  exact Finset.sum_congr rfl fun i _ => by rw [getD_map_neg]; ring

theorem dot_neg_left (xs ys : List ℚ) :
    dot (xs.map (fun x => -x)) ys = -dot xs ys := by
  rw [dot_eq_sum_range, dot_eq_sum_range, List.length_map, ← Finset.sum_neg_distrib]
  exact Finset.sum_congr rfl fun i _ => by rw [getD_map_neg]; ring

theorem Bv_neg (B : BMat) (v : List ℚ) :
    Bv B (v.map (fun x => -x)) = (Bv B v).map (fun x => -x) := by
  unfold Bv
  rw [List.map_map]
  apply List.map_congr_left
  intro i _
  simp only [Function.comp_apply]
  rw [dot_neg_right, dot_neg_right, getD_map_neg]
  ring

/-- C9: `modularityCalc` is symmetric under negation of the division
vector: for every matrix `B` and vector `v`,
`modularityCalc B (-v) = modularityCalc B v`. -/
theorem modularityCalc_neg (B : BMat) (v : List ℚ) :
    modularityCalc B (v.map (fun x => -x)) = modularityCalc B v := by
  unfold modularityCalc
  rw [Bv_neg, dot_neg_right, dot_neg_left]
  ring_nf

/-- Entry `(i, j)` of the implicit operator before shifting:
`adjacency[i][j] − k_i·k_j/M`, minus `correctionVector[i]` on the
diagonal.  Used to recompute the shift bound. -/
def unshiftedEntry (B : BMat) (i j : ℕ) : ℚ :=
  (B.adjacency.getD i []).getD j 0
    - B.degreeIndex.getD i 0 * B.degreeIndex.getD j 0 / B.M
    - (if i = j then B.vecF.getD i 0 else 0)

/-- Modelled from the spec: the shift recomputation inside
`updateFields` is not under `src/`.  Per spec §3 the shift is the
maximum absolute row-sum bound of the implicit (unshifted) operator. -/
def computeShift (B : BMat) : ℚ :=
  ((List.range B.n).map
    (fun i => ∑ j ∈ Finset.range B.n, |unshiftedEntry B i j|)).foldr max 0

/-- Modelled from the spec: the implementation of `updateFields` is not
under `src/` (only its declaration in `bmat.h`).  Per spec §4.1 it
atomically replaces `correctionVector` with the supplied vector and
recomputes `shift` from it; all other fields are untouched. -/
def updateFields (B : BMat) (vecF : List ℚ) : BMat :=
  let B' : BMat := { B with vecF := vecF }
  { B' with shifting := computeShift B' }

/-- Modelled from the spec: the correction-vector computation for a
freshly restricted subgroup matrix is not under `src/`.  Per spec §3
the correction vector holds the row sums of the implicit operator over
the subgroup  (`Σ_j (adjacency[i][j] − k_i·k_j/M)`). -/
def computeVecF (B : BMat) : List ℚ :=
  (List.range B.n).map (fun i =>
    ∑ j ∈ Finset.range B.n,
      ((B.adjacency.getD i []).getD j 0
        - B.degreeIndex.getD i 0 * B.degreeIndex.getD j 0 / B.M))

/-- Modelled from the spec: restriction of a `BMat` to the sub-list of
local row indexes `idx` — the induced sub-adjacency, the restricted
degree array, the inherited total edge weight `M`, and `vecF`/`shift`
recomputed against the restricted vertex set via `updateFields`. -/
def restrict (B : BMat) (idx : List ℕ) : BMat :=
  let base : BMat :=
    { n := idx.length
      adjacency := idx.map (fun i =>
        idx.map (fun j => (B.adjacency.getD i []).getD j 0))
      degreeIndex := idx.map (fun i => B.degreeIndex.getD i 0)
      vecF := []
      M := B.M
      shifting := 0 }
  updateFields base (computeVecF base)

/-- Modelled from the spec: the implementation of `splitGraphB` is not
under `src/` (only its declaration in `bmat.h`).  Per spec §4.1 it
fails with `InvalidPartitionError` when `g1Size + g2Size ≠ n` or either
size is zero; otherwise it partitions the subgroup along the sign
boundary of the division vector `s` (rows with `s[i] = 1` go to group
1, the rest to group 2), builds the two restricted matrices, and maps
the surviving rows of the subgroup-to-original index array `g` to each
side.  Result: ((group-1 matrix, group-1 vertex list),
(group-2 matrix, group-2 vertex list)). -/
def splitGraphB (B : BMat) (s : List ℚ) (g : List ℕ)
    (g1Size g2Size : ℕ) :
    Except BErr ((BMat × List ℕ) × (BMat × List ℕ)) :=
  if g1Size + g2Size ≠ B.n ∨ g1Size = 0 ∨ g2Size = 0 then
    Except.error BErr.invalidPartition
  else
    let idx1 := (List.range B.n).filter (fun i => s.getD i 0 == 1)
    let idx2 := (List.range B.n).filter (fun i => !(s.getD i 0 == 1))
    Except.ok ((restrict B idx1, idx1.map (fun i => g.getD i 0)),
               (restrict B idx2, idx2.map (fun i => g.getD i 0)))

/-- C2: `splitGraphB` fails with `InvalidPartitionError` exactly when
`g1Size + g2Size ≠ n` or either size is zero; when the sizes are
consistent and positive it performs the split and returns the two
child matrices instead of an error. -/
theorem splitGraphB_invalid_iff (B : BMat) (s : List ℚ) (g : List ℕ)
    (g1Size g2Size : ℕ) :
    (splitGraphB B s g g1Size g2Size =
        Except.error BErr.invalidPartition ↔
      (g1Size + g2Size ≠ B.n ∨ g1Size = 0 ∨ g2Size = 0))
    ∧ (g1Size + g2Size = B.n → g1Size ≠ 0 → g2Size ≠ 0 →
        ∃ out, splitGraphB B s g g1Size g2Size = Except.ok out) := by
  constructor
  · unfold splitGraphB
    split_ifs with h
    · simp [h]
    · simp [h]
  · intro hsum h1 h2
    unfold splitGraphB
    rw [if_neg (by push_neg; exact ⟨hsum, h1, h2⟩)]
    exact ⟨_, rfl⟩

theorem restrict_degreeIndex (B : BMat) (idx : List ℕ) :
    (restrict B idx).degreeIndex
      = idx.map (fun i => B.degreeIndex.getD i 0) := rfl

theorem restrict_M (B : BMat) (idx : List ℕ) :
    (restrict B idx).M = B.M := rfl

theorem map_getD_range {α : Type} (K : List α) (d : α) (n : ℕ)
    (h : K.length = n) :
    (List.range n).map (fun i => K.getD i d) = K := by
  apply List.ext_getElem
  · simp [h]
  · intro i h1 h2
    simp only [List.getElem_map, List.getElem_range]
    rw [List.getD_eq_getElem K d h2]

/-- C7: for every valid split the two children partition the parent
subgroup — the multiset union of the two children's vertex lists is
exactly the parent's vertex list `g`, so each parent vertex lands in
exactly one child — and the multiset union of the children's
`degreeIndex` arrays is exactly the parent's `degreeIndex` multiset. -/
theorem splitGraphB_partition (B : BMat) (s : List ℚ) (g : List ℕ)
    (g1Size g2Size : ℕ) (hsum : g1Size + g2Size = B.n)
    (h1 : g1Size ≠ 0) (h2 : g2Size ≠ 0)
    (hK : B.degreeIndex.length = B.n) (hg : g.length = B.n) :
    ∃ out, splitGraphB B s g g1Size g2Size = Except.ok out ∧
      (↑out.1.2 + ↑out.2.2 : Multiset ℕ) = ↑g ∧
      (↑out.1.1.degreeIndex + ↑out.2.1.degreeIndex : Multiset ℚ)
        = ↑B.degreeIndex := by
  have hperm :
      List.Perm
        ((List.range B.n).filter (fun i => s.getD i 0 == 1)
          ++ (List.range B.n).filter (fun i => !(s.getD i 0 == 1)))
        (List.range B.n) :=
    List.filter_append_perm _ _
  refine ⟨((restrict B ((List.range B.n).filter (fun i => s.getD i 0 == 1)),
        ((List.range B.n).filter (fun i => s.getD i 0 == 1)).map
          (fun i => g.getD i 0)),
      (restrict B ((List.range B.n).filter (fun i => !(s.getD i 0 == 1))),
        ((List.range B.n).filter (fun i => !(s.getD i 0 == 1))).map
          (fun i => g.getD i 0))), ?_, ?_, ?_⟩
  · unfold splitGraphB
    rw [if_neg (by push_neg; exact ⟨hsum, h1, h2⟩)]
  · dsimp only
    rw [Multiset.coe_add, ← List.map_append]
    refine Multiset.coe_eq_coe.mpr ?_
    have := hperm.map (fun i => g.getD i 0)
    rwa [map_getD_range g 0 B.n hg] at this
  · simp only [restrict_degreeIndex]
    rw [Multiset.coe_add, ← List.map_append]
    refine Multiset.coe_eq_coe.mpr ?_
    have := hperm.map (fun i => B.degreeIndex.getD i 0)
    rwa [map_getD_range B.degreeIndex 0 B.n hK] at this

/-- C8: the total edge weight `M` is invariant: both children produced
by a successful `splitGraphB` carry the parent's `M` unchanged, and
`updateFields` never changes `M` either. -/
theorem totalEdgeWeight_invariant (B : BMat) (s : List ℚ) (g : List ℕ)
    (g1Size g2Size : ℕ) (vecF : List ℚ)
    (out : (BMat × List ℕ) × (BMat × List ℕ))
    (h : splitGraphB B s g g1Size g2Size = Except.ok out) :
    out.1.1.M = B.M ∧ out.2.1.M = B.M ∧
      (updateFields B vecF).M = B.M := by
  unfold splitGraphB at h
  split_ifs at h
  refine ⟨?_, ?_, rfl⟩ <;>
    · cases h' : out with
      | mk a b =>
        rw [h'] at h
        injection h with h
        injection h with ha hb
        subst ha
        subst hb
        rfl

/-- The power-iteration budget declared in `bmat.h` (line 109):
`5000 * size + 80000` iterations at most. -/
def IterMax (n : ℕ) : ℕ := 5000 * n + 80000

/-- Maximum absolute coordinate difference between two vectors, the
convergence measure of spec §4.2. -/
def maxAbsDiff (xs ys : List ℚ) : ℚ :=
  (List.zipWith (fun a b => |a - b|) xs ys).foldr max 0

/-- Modelled from the spec: the loop body of `powerIter` is not under
`src/` (only its declaration in `bmat.h`).  Per spec §4.2 each
iteration computes `next = normalize (B·current)` and stops with the
converged vector once `maxAbsDiff current next` falls below the
tolerance; when the fuel (the iteration budget) runs out without
convergence the outcome is `NonConvergenceError`.  Euclidean
normalization divides by a square root, which has no exact rational
representation, so the normalization map is taken as a parameter; every
theorem below holds for all choices of it. -/
def powerIterGo (B : BMat) (normalize : List ℚ → List ℚ) (tol : ℚ) :
    ℕ → List ℚ → Except BErr (List ℚ)
  | 0, _ => Except.error BErr.nonConvergence
  | fuel + 1, cur =>
    let next := normalize (Bv B cur)
    if maxAbsDiff cur next ≤ tol then Except.ok next
    else powerIterGo B normalize tol fuel next

/-- Modelled from the spec: the implementation of `powerIter` is not
under `src/`.  Per spec §4.2 the seed is normalized first (a zero seed
is a `ZeroVectorError`) and the loop runs with budget `IterMax n`. -/
def powerIter (B : BMat) (normalize : List ℚ → List ℚ) (tol : ℚ)
    (b0 : List ℚ) : Except BErr (List ℚ) :=
  if dot b0 b0 = 0 then Except.error BErr.zeroVector
  else powerIterGo B normalize tol (IterMax B.n) (normalize b0)

/-- The sequence of power-iteration iterates: `iterSeq 0` is the
normalized seed and each successor is the normalized product with B. -/
def iterSeq (B : BMat) (normalize : List ℚ → List ℚ) (b0 : List ℚ) :
    ℕ → List ℚ
  | 0 => normalize b0
  | k + 1 => normalize (Bv B (iterSeq B normalize b0 k))

/-- The convergence test of spec §4.2 holds at step `k`. -/
def ConvergedAt (B : BMat) (normalize : List ℚ → List ℚ) (tol : ℚ)
    (b0 : List ℚ) (k : ℕ) : Prop :=
  maxAbsDiff (iterSeq B normalize b0 k) (iterSeq B normalize b0 (k + 1))
    ≤ tol

instance (B : BMat) (normalize : List ℚ → List ℚ) (tol : ℚ)
    (b0 : List ℚ) (k : ℕ) :
    Decidable (ConvergedAt B normalize tol b0 k) := by
  unfold ConvergedAt; infer_instance

theorem powerIterGo_spec (B : BMat) (normalize : List ℚ → List ℚ)
    (tol : ℚ) (b0 : List ℚ) :
    ∀ fuel m,
      (powerIterGo B normalize tol fuel (iterSeq B normalize b0 m)
          = Except.error BErr.nonConvergence ↔
        ∀ k < fuel, ¬ ConvergedAt B normalize tol b0 (m + k))
      ∧ (∀ v,
          powerIterGo B normalize tol fuel (iterSeq B normalize b0 m)
            = Except.ok v →
          ∃ k < fuel, ConvergedAt B normalize tol b0 (m + k) ∧
            v = iterSeq B normalize b0 (m + k + 1)) := by
  intro fuel
  induction fuel with
  | zero =>
    intro m
    constructor
    · simp [powerIterGo]
    · intro v h
      simp [powerIterGo] at h
  | succ fuel ih =>
    intro m
    have hnext : normalize (Bv B (iterSeq B normalize b0 m))
        = iterSeq B normalize b0 (m + 1) := rfl
    by_cases hc : ConvergedAt B normalize tol b0 m
    · have hc' : maxAbsDiff (iterSeq B normalize b0 m)
          (iterSeq B normalize b0 (m + 1)) ≤ tol := hc
      constructor
      · simp only [powerIterGo, hnext]
        rw [if_pos hc']
        constructor
        · intro h; cases h
        · intro h
          exact absurd hc (by simpa using h 0 (Nat.succ_pos fuel))
      · intro v hv
        simp only [powerIterGo, hnext] at hv
        rw [if_pos hc'] at hv
        injection hv with hv
        exact ⟨0, Nat.succ_pos fuel, by simpa using hc, by simpa using hv.symm⟩
    · have hc' : ¬ maxAbsDiff (iterSeq B normalize b0 m)
          (iterSeq B normalize b0 (m + 1)) ≤ tol := hc
      have hstep :
          powerIterGo B normalize tol (fuel + 1)
              (iterSeq B normalize b0 m)
            = powerIterGo B normalize tol fuel
              (iterSeq B normalize b0 (m + 1)) := by
        simp only [powerIterGo, hnext]
        rw [if_neg hc']
      constructor
      · rw [hstep, (ih (m + 1)).1]
        constructor
        · intro h k hk
          match k with
          | 0 => simpa using hc
          | k + 1 =>
            have := h k (by omega)
            simpa [Nat.add_assoc, Nat.add_comm 1 k] using this
        · intro h k hk
          have := h (k + 1) (by omega)
          simpa [Nat.add_assoc, Nat.add_comm 1 k] using this
      · intro v hv
        rw [hstep] at hv
        obtain ⟨k, hk, hck, hvk⟩ := (ih (m + 1)).2 v hv
        refine ⟨k + 1, by omega, ?_, ?_⟩
        · simpa [Nat.add_assoc, Nat.add_comm 1 k] using hck
        · simpa [Nat.add_assoc, Nat.add_comm 1 k] using hvk

/-- C3: with a nonzero seed, `powerIter` runs at most `5000·n + 80000`
iterations: it reports `NonConvergenceError` exactly when no step
within that budget meets the convergence test, and whenever it returns
a vector, that vector is the iterate of some step within the budget at
which the convergence test was met — a non-converged vector is never
returned as a result. -/
theorem powerIter_budget (B : BMat) (normalize : List ℚ → List ℚ)
    (tol : ℚ) (b0 : List ℚ) (hb0 : dot b0 b0 ≠ 0) :
    (powerIter B normalize tol b0 = Except.error BErr.nonConvergence ↔
      ∀ k < IterMax B.n, ¬ ConvergedAt B normalize tol b0 k)
    ∧ (∀ v, powerIter B normalize tol b0 = Except.ok v →
        ∃ k < IterMax B.n, ConvergedAt B normalize tol b0 k ∧
          v = iterSeq B normalize b0 (k + 1)) := by
  have h0 : normalize b0 = iterSeq B normalize b0 0 := rfl
  unfold powerIter
  rw [if_neg hb0, h0]
  have := powerIterGo_spec B normalize tol b0 (IterMax B.n) 0
  simpa using this

/-- Degree of vertex `i`: the sum of the weights in its adjacency row. -/
def degreeOf (graph : List (List ℚ)) (i : ℕ) : ℚ := (graph.getD i []).sum

/-- Modelled from the spec: the implementation of `readGraphB` is not
under `src/` (only its declaration in `bmat.h`), and the binary-file
parsing is out of scope per spec §1, so the input is taken as the
already-parsed full weighted adjacency.  Per spec §4.1 the root matrix
has `n` = the vertex count, `adjacency` = the full graph,
`degreeIndex[i]` = vertex `i`'s degree, `M` = the sum of all degrees,
`vecF[i] = degreeIndex[i]·totalDegreeSum/M`, and zero shift. -/
def readGraphB (graph : List (List ℚ)) : BMat :=
  let n := graph.length
  let deg := (List.range n).map (degreeOf graph)
  let M : ℚ := deg.sum
  { n := n
    adjacency := graph
    degreeIndex := deg
    vecF := deg.map (fun d => d * deg.sum / M)
    M := M
    shifting := 0 }

theorem sum_map_range (f : ℕ → ℚ) (n : ℕ) :
    ((List.range n).map f).sum = ∑ i ∈ Finset.range n, f i := by
  induction n with
  | zero => simp
  | succ n ih =>
    rw [List.range_succ, Finset.sum_range_succ, List.map_append,
      List.sum_append, ih]
    simp

theorem getD_map_range {α : Type} (f : ℕ → α) (d : α) {n i : ℕ}
    (h : i < n) : ((List.range n).map f).getD i d = f i := by
  rw [List.getD_eq_getElem _ _ (by simpa using h)]
  simp

/-- C6: on a full weighted graph, `readGraphB` builds the root matrix
with `n` the vertex count, `adjacency` the full graph, `degreeIndex[i]`
the degree (row sum) of vertex `i`, `M` the sum of all degrees,
`vecF[i] = degreeIndex[i] × totalDegreeSum / totalEdgeWeight`, and
shift 0. -/
theorem readGraphB_spec (graph : List (List ℚ)) :
    (readGraphB graph).n = graph.length
    ∧ (readGraphB graph).adjacency = graph
    ∧ (∀ i, i < graph.length →
        (readGraphB graph).degreeIndex.getD i 0 = (graph.getD i []).sum)
    ∧ (readGraphB graph).M
        = ∑ i ∈ Finset.range graph.length, (graph.getD i []).sum
    ∧ (∀ i, i < graph.length →
        (readGraphB graph).vecF.getD i 0
          = (readGraphB graph).degreeIndex.getD i 0
              * (∑ i ∈ Finset.range graph.length, (graph.getD i []).sum)
              / (readGraphB graph).M)
    ∧ (readGraphB graph).shifting = 0 := by
  refine ⟨rfl, rfl, ?_, ?_, ?_, rfl⟩
  · intro i hi
    exact getD_map_range (degreeOf graph) 0 hi
  · exact sum_map_range (degreeOf graph) graph.length
  · intro i hi
    show (((List.range graph.length).map (degreeOf graph)).map
        (fun d => d * ((List.range graph.length).map (degreeOf graph)).sum
          / ((List.range graph.length).map (degreeOf graph)).sum)).getD i 0
      = ((List.range graph.length).map (degreeOf graph)).getD i 0
          * (∑ i ∈ Finset.range graph.length, (graph.getD i []).sum)
          / ((List.range graph.length).map (degreeOf graph)).sum
    rw [List.map_map, getD_map_range _ 0 hi,
      getD_map_range (degreeOf graph) 0 hi,
      sum_map_range (degreeOf graph) graph.length]
    rfl

/-- Modelled from the spec: the implementation of `randomizeVec` is not
under `src/` (only its declaration in `bmat.h`).  Per the header and
spec §4.3 it fills the first `groupSize` entries of the vector with
values from a random source; the source is modelled as an explicit
stream `rand` of draws.  Recursion over the vector, tracking the
absolute index. -/
def randomizeVecAux (rand : ℕ → ℚ) (groupSize : ℕ) :
    ℕ → List ℚ → List ℚ
  | _, [] => []
  | i, x :: xs =>
    (if i < groupSize then rand i else x)
      :: randomizeVecAux rand groupSize (i + 1) xs

/-- Modelled from the spec: `randomizeVec` fills the first `groupSize`
entries with random draws, leaving the rest of the vector as it was. -/
def randomizeVec (rand : ℕ → ℚ) (vec : List ℚ) (groupSize : ℕ) :
    List ℚ :=
  randomizeVecAux rand groupSize 0 vec

theorem randomizeVecAux_length (rand : ℕ → ℚ) (groupSize : ℕ) :
    ∀ (start : ℕ) (xs : List ℚ),
      (randomizeVecAux rand groupSize start xs).length = xs.length := by
  intro start xs
  induction xs generalizing start with
  | nil => rfl
  | cons x xs ih => simp [randomizeVecAux, ih]

theorem randomizeVecAux_getD (rand : ℕ → ℚ) (groupSize : ℕ) :
    ∀ (start : ℕ) (xs : List ℚ) (i : ℕ), groupSize ≤ start + i →
      (randomizeVecAux rand groupSize start xs).getD i 0
        = xs.getD i 0 := by
  intro start xs
  induction xs generalizing start with
  | nil => intro i _; rfl
  | cons x xs ih =>
    intro i hle
    match i with
    | 0 =>
      have : ¬ start < groupSize := by omega
      simp [randomizeVecAux, this]
    | i + 1 =>
      simp only [randomizeVecAux, List.getD_cons_succ]
      exact ih (start + 1) i (by omega)

/-- C10: `randomizeVec` writes only the first `groupSize` entries: the
result has the same length as the input, and every entry at an index at
or beyond `groupSize` is unchanged. -/
theorem randomizeVec_frame (rand : ℕ → ℚ) (vec : List ℚ)
    (groupSize : ℕ) :
    (randomizeVec rand vec groupSize).length = vec.length
    ∧ ∀ i, groupSize ≤ i →
        (randomizeVec rand vec groupSize).getD i 0 = vec.getD i 0 := by
  constructor
  · exact randomizeVecAux_length rand groupSize 0 vec
  · intro i hi
    exact randomizeVecAux_getD rand groupSize 0 vec i (by omega)

/-- A concrete 2-vertex example matrix: a single edge of weight 1. -/
def exB : BMat :=
  { n := 2
    adjacency := [[0, 1], [1, 0]]
    degreeIndex := [1, 1]
    vecF := [0, 0]
    M := 2
    shifting := 0 }

/-- A concrete 1-vertex example matrix on which `Bv` is the identity. -/
def exB1 : BMat :=
  { n := 1
    adjacency := [[1]]
    degreeIndex := [0]
    vecF := [0]
    M := 1
    shifting := 0 }

/-- The result of the valid split of `exB` along `s = [1, -1]`. -/
def exOut : (BMat × List ℕ) × (BMat × List ℕ) :=
  ((restrict exB [0], [0]), (restrict exB [1], [1]))

theorem Bv_implements_dense_witness :
    WF exB ∧ ([1, 2] : List ℚ).length = exB.n ∧
      Bv exB [1, 2] = denseMulVec exB [1, 2] :=
  ⟨by decide, by decide,
    Bv_implements_dense exB [1, 2] (by decide) (by decide)⟩

theorem splitGraphB_invalid_iff_witness :
    splitGraphB exB [1, -1] [0, 1] 0 2
      = Except.error BErr.invalidPartition :=
  (splitGraphB_invalid_iff exB [1, -1] [0, 1] 0 2).1.mpr (by decide)

theorem powerIter_budget_witness :
    dot ([1] : List ℚ) [1] ≠ 0 ∧
      ∃ k < IterMax exB1.n, ConvergedAt exB1 id 0 [1] k ∧
        ([1] : List ℚ) = iterSeq exB1 id [1] (k + 1) := by
  have hdot : dot ([1] : List ℚ) [1] = 1 := by
    norm_num [dot]
  have hBv : Bv exB1 [1] = [1] := by
    have h01 : List.range 1 = [0] := rfl
    norm_num [Bv, exB1, dot, h01]
  have hgo : powerIterGo exB1 id 0 (84999 + 1) [1]
      = if maxAbsDiff [1] (id (Bv exB1 [1])) ≤ 0 then
          Except.ok (id (Bv exB1 [1]))
        else powerIterGo exB1 id 0 84999 (id (Bv exB1 [1])) := rfl
  have hmax : maxAbsDiff ([1] : List ℚ) [1] = 0 := by
    norm_num [maxAbsDiff]
  have hok : powerIter exB1 id 0 [1] = Except.ok [1] := by
    unfold powerIter
    rw [if_neg (by rw [hdot]; norm_num)]
    have hIter : IterMax exB1.n = 84999 + 1 := by norm_num [IterMax, exB1]
    rw [hIter]
    simp only [id_eq] at hgo ⊢
    rw [hgo, hBv, hmax]
    norm_num
  exact ⟨by rw [hdot]; norm_num,
    (powerIter_budget exB1 id 0 [1] (by rw [hdot]; norm_num)).2 [1] hok⟩

theorem eigenValue_spec_witness :
    eigenValue exB [1, 2]
      = (dot [1, 2] (Bv exB [1, 2]) / dot [1, 2] [1, 2], none) :=
  (eigenValue_spec exB [1, 2]).1 ⟨1, by decide, by decide⟩

theorem modularityCalc_eq_dense_witness :
    modularityCalc exB [1, -1]
      = dot [1, -1] (denseMulVec exB [1, -1]) / (4 * exB.M) :=
  modularityCalc_eq_dense exB [1, -1] (by decide) (by decide) (by decide)

theorem readGraphB_spec_witness :
    (readGraphB [[0, 1], [1, 0]]).degreeIndex.getD 0 0
      = (([[0, 1], [1, 0]] : List (List ℚ)).getD 0 []).sum :=
  (readGraphB_spec [[0, 1], [1, 0]]).2.2.1 0 (by decide)

theorem splitGraphB_partition_witness :
    ∃ out, splitGraphB exB [1, -1] [0, 1] 1 1 = Except.ok out ∧
      (↑out.1.2 + ↑out.2.2 : Multiset ℕ) = ↑([0, 1] : List ℕ) ∧
      (↑out.1.1.degreeIndex + ↑out.2.1.degreeIndex : Multiset ℚ)
        = ↑exB.degreeIndex :=
  splitGraphB_partition exB [1, -1] [0, 1] 1 1 (by decide) (by decide)
    (by decide) (by decide) (by decide)

theorem totalEdgeWeight_invariant_witness :
    exOut.1.1.M = exB.M ∧ exOut.2.1.M = exB.M ∧
      (updateFields exB [0, 0]).M = exB.M :=
  totalEdgeWeight_invariant exB [1, -1] [0, 1] 1 1 [0, 0] exOut (by rfl)

theorem randomizeVec_frame_witness :
    (randomizeVec (fun _ => 7) [1, 2, 3] 2).getD 2 0
      = ([1, 2, 3] : List ℚ).getD 2 0 :=
  (randomizeVec_frame (fun _ => 7) [1, 2, 3] 2).2 2 (by decide)

end NewmanB
